import Mathlib

/-!
Shallow embedding of the layer-dependent importance sampler
(`autogl/module/train/sampling/sampler/layer_dependent_importance_sampler.py`)
and of the random split-mask generator (`autogl/datasets/utils/_general.py`).

Integer index tensors become `List Nat`, floating-point tensors become
`List ℚ` (exact rational arithmetic standing for the real-number semantics of
the float code), a `2 × E` edge-index tensor becomes a `List (Nat × Nat)` of
(source, target) columns, and Python exceptions become `Except PyError`.
Randomness is passed in explicitly: the indices that `np.random.choice` or
`torch.randperm` would produce are parameters of the embedded functions.
-/

set_option allowUnsafeReducibility true in
attribute [semireducible] Rat.add Rat.mul Rat.inv Rat.sub Rat.ofScientific

deriving instance DecidableEq for Except

namespace AutoGL

/-- Python exception kinds raised by the modelled code. -/
inductive PyError
  | typeError
  | valueError
  | runtimeError
deriving DecidableEq, Repr

/-- Insert a value into an ascending duplicate-free list, keeping it ascending
and duplicate-free. -/
def insertSorted (a : Nat) : List Nat → List Nat
  | [] => [a]
  | b :: bs =>
    if a < b then a :: b :: bs
    else if a = b then b :: bs
    else b :: insertSorted a bs

/-- Sorted deduplication, modelling `torch.unique` / `np.unique` (both return
the distinct values in ascending order). -/
def uniqueSorted (l : List Nat) : List Nat :=
  l.foldr insertSorted []

/-- Concatenation of a list of index lists, modelling `torch.cat` applied to a
Python list of 1-D integer tensors (the error raised on an empty list is
handled at each call site). -/
def catLists (ls : List (List Nat)) : List Nat :=
  ls.foldr (fun a b => a ++ b) []

/-- Largest node index occurring in an edge list, modelling
`edge_index.max().item()` (what PyG `maybe_num_nodes` computes, minus one). -/
def maxNode (edges : List (Nat × Nat)) : Nat :=
  edges.foldr (fun e m => max (max e.1 e.2) m) 0

/-- Models `torch_geometric.utils.add_remaining_self_loops` on an edge index:
keep the non-loop edges and append one self-loop `(v, v)` for every node
`v < maxNode edges + 1`. -/
def addRemainingSelfLoops (edges : List (Nat × Nat)) : List (Nat × Nat) :=
  edges.filter (fun e => decide (e.1 ≠ e.2))
    ++ (List.range (maxNode edges + 1)).map (fun v => (v, v))

/-- Reciprocal with the non-finite clamp of `compute_edge_weights`: in floating
point `1.0 / 0.0 = inf` and the assignment `temp[torch.isinf(temp)] = 0.0`
resets exactly those entries to `0`. -/
def recipClamp (q : ℚ) : ℚ :=
  if q = 0 then 0 else 1 / q

/-- Models `torch_geometric.utils.degree`: entry `v` counts the occurrences of
`v` in the index list; the array length is the largest index plus one. -/
def degreeCount (idx : List Nat) : List ℚ :=
  (List.range (idx.foldr max 0 + 1)).map (fun v => (idx.count v : ℚ))

/-- Models `_Utility.compute_edge_weights`: stack the per-edge out-degree of
the source and in-degree of the target, take clamped reciprocals, multiply the
two rows elementwise. -/
def computeEdgeWeights (edges : List (Nat × Nat)) : List ℚ :=
  let srcs := edges.map Prod.fst
  let tgts := edges.map Prod.snd
  let outDeg := degreeCount srcs
  let inDeg := degreeCount tgts
  List.zipWith (fun a b => a * b)
    (srcs.map (fun v => recipClamp (outDeg.getD v 0)))
    (tgts.map (fun v => recipClamp (inDeg.getD v 0)))

/-- The sampler state: the self-loop-augmented edge index and the edge weight
array, both fixed at construction. -/
structure Sampler where
  allEdgeIndexWithSelfLoops : List (Nat × Nat)
  allEdgeWeights : List ℚ
deriving DecidableEq

/-- Models `LayerDependentImportanceSampler.__init__`. -/
def Sampler.construct (allEdgeIndex : List (Nat × Nat)) : Sampler :=
  let aug := addRemainingSelfLoops allEdgeIndex
  ⟨aug, computeEdgeWeights aug⟩

/-- Masked sum `torch.sum(w[keys == t]).item()`: the sum of the entries of `w`
whose aligned key in `keys` equals `t`. -/
def maskSum (t : Nat) : List Nat → List ℚ → ℚ
  | tg :: tgs, x :: xs => (if tg = t then x else 0) + maskSum t tgs xs
  | _, _ => 0

/-- Models lines 112-117 of `__sample_layer`: for each distinct target node,
collect the indexes of the edges pointing at it (`torch.where`), concatenate
and deduplicate.  `torch.cat` on an empty Python list (no target node at all)
raises a `RuntimeError`. -/
def candidateEdgeIndexes (edges : List (Nat × Nat)) (targets : List Nat) :
    Except PyError (List Nat) :=
  let ts := uniqueSorted targets
  if ts = [] then .error .runtimeError
  else .ok (uniqueSorted (catLists (ts.map (fun t =>
    (List.range edges.length).filter (fun i => decide ((edges.getD i (0, 0)).2 = t))))))

/-- Models `_Utility.get_candidate_source_nodes_probabilities`: restrict the
edge index and the weights to the candidate edge indexes, deduplicate the
source endpoints, and give each distinct source the mass of its candidate
edges divided by the total candidate mass. -/
def getCandidateSourceNodesProbabilities (candIdx : List Nat)
    (edges : List (Nat × Nat)) (weights : List ℚ) : List Nat × List ℚ :=
  let candSrcs := candIdx.map (fun i => (edges.getD i (0, 0)).1)
  let candW := candIdx.map (fun i => weights.getD i 0)
  let us := uniqueSorted candSrcs
  (us, us.map (fun s => maskSum s candSrcs candW / candW.sum))

/-- Models the selection step (lines 126-137 of `__sample_layer`).  `draws` is
the index list produced by `np.random.choice(len(us), budget, p=ps)`; such
indices are always in range, so the `getD` default is never reached in the
modelled system. -/
def selectSourceNodes (us : List Nat) (budget : Nat) (draws : List Nat) : List Nat :=
  if budget < us.length then
    uniqueSorted ((uniqueSorted draws).map (fun i => us.getD i 0))
  else us

/-- Models `_Utility.filter_selected_edges_by_source_nodes_and_target_nodes`:
build a source mask and a target mask over the full edge list — each one via
`torch.cat` over per-node `torch.where` results, which raises a `RuntimeError`
when the node list is empty — and return the indexes where both masks hold. -/
def filterSelectedEdges (edges : List (Nat × Nat)) (S T : List Nat) :
    Except PyError (List Nat) :=
  let sU := uniqueSorted S
  let tU := uniqueSorted T
  if sU = [] then .error .runtimeError
  else if tU = [] then .error .runtimeError
  else .ok ((List.range edges.length).filter (fun i =>
    decide ((edges.getD i (0, 0)).1 ∈ sU) && decide ((edges.getD i (0, 0)).2 ∈ tU)))

/-- Models the Horvitz-Thompson correction (lines 146-158 of `__sample_layer`):
the weight of each selected edge divided by the number of selected source
nodes times the probability of its source node, the latter looked up as
`ps[us == src].item()` (the source occurs exactly once in `us`). -/
def rawSelectedEdgeWeights (weights : List ℚ) (edges : List (Nat × Nat))
    (selIdx S us : List Nat) (ps : List ℚ) : List ℚ :=
  selIdx.map (fun i =>
    weights.getD i 0 / ((S.length : ℚ) * maskSum (edges.getD i (0, 0)).1 us ps))

/-- One masked in-place update `w[mask] = w[mask] / s` where the mask selects
the positions whose aligned target equals `t`. -/
def stepDiv (t : Nat) (s : ℚ) : List Nat → List ℚ → List ℚ
  | tg :: tgs, x :: xs => (if tg = t then x / s else x) :: stepDiv t s tgs xs
  | _, _ => []

/-- One iteration of the loop of `__normalize_edges_weight_by_target_nodes`:
divide the entries with target `t` by their current masked sum. -/
def normalizeStep (tgts : List Nat) (t : Nat) (w : List ℚ) : List ℚ :=
  stepDiv t (maskSum t tgts w) tgts w

/-- Models `__normalize_edges_weight_by_target_nodes` (lines 160-174): check
the length match (`ValueError` otherwise), then run the masked update once for
every distinct target of the edge subset. -/
def normalizeEdgesWeightByTargetNodes (pairs : List (Nat × Nat)) (w : List ℚ) :
    Except PyError (List ℚ) :=
  if pairs.length ≠ w.length then .error .valueError
  else
    let tgts := pairs.map Prod.snd
    .ok ((uniqueSorted tgts).foldl (fun acc t => normalizeStep tgts t acc) w)

/-- Closed form of the sequential masked updates of
`__normalize_edges_weight_by_target_nodes`: an entry whose target lies in `ts`
is divided by the masked sum its target had in the original state
`(tgts0, w0)`; other entries are unchanged.  Defined on a parallel suffix
`(tgs, xs)` of the state so that it can be related to the fold by recursion. -/
def normClosed (ts tgts0 : List Nat) (w0 : List ℚ) : List Nat → List ℚ → List ℚ
  | tg :: tgs, x :: xs =>
    (if tg ∈ ts then x / maskSum tg tgts0 w0 else x) :: normClosed ts tgts0 w0 tgs xs
  | _, _ => []

/-- The 4-tuple returned by `__sample_layer`. -/
structure LayerSample where
  edgeIndex : List (Nat × Nat)
  edgeWeight : List ℚ
  selectedSourceNodes : List Nat
  selectedEdgeIndexes : List Nat
deriving DecidableEq, Repr

/-- Models `LayerDependentImportanceSampler.__sample_layer`. -/
def sampleLayer (smp : Sampler) (targets : List Nat) (budget : Nat)
    (draws : List Nat) : Except PyError LayerSample :=
  match candidateEdgeIndexes smp.allEdgeIndexWithSelfLoops targets with
  | .error e => .error e
  | .ok candIdx =>
    let usps := getCandidateSourceNodesProbabilities candIdx
      smp.allEdgeIndexWithSelfLoops smp.allEdgeWeights
    let S := selectSourceNodes usps.1 budget draws
    match filterSelectedEdges smp.allEdgeIndexWithSelfLoops S targets with
    | .error e => .error e
    | .ok selIdx0 =>
      let selIdx := uniqueSorted selIdx0
      let raw := rawSelectedEdgeWeights smp.allEdgeWeights
        smp.allEdgeIndexWithSelfLoops selIdx S usps.1 usps.2
      let selPairs := selIdx.map (fun i => smp.allEdgeIndexWithSelfLoops.getD i (0, 0))
      match normalizeEdgesWeightByTargetNodes selPairs raw with
      | .error e => .error e
      | .ok norm => .ok ⟨selPairs, norm, S, selIdx⟩

/-- A component of a Python tuple appearing in the value returned by `sample`.
Python tuples are heterogeneous runtime sequences, so a layer result is
modelled as a `List PyObj`, which keeps the number of components a fact of the
value rather than of the type. -/
inductive PyObj
  | tensorPairs (l : List (Nat × Nat))
  | tensorRat (l : List ℚ)
deriving DecidableEq, Repr

/-- The loop of `sample` (lines 203-213) carrying the full per-layer 4-tuple.
Iteration `k` of the loop consumes the draw list `draws[k]`. -/
def sampleLoopFull (smp : Sampler) :
    List Nat → List Nat → List (List Nat) → Except PyError (List LayerSample)
  | _, [], _ => .ok []
  | targets, b :: bs, ds =>
    match sampleLayer smp targets b (ds.headD []) with
    | .error e => .error e
    | .ok r =>
      match sampleLoopFull smp r.selectedSourceNodes bs ds.tail with
      | .error e => .error e
      | .ok rest => .ok (r :: rest)

/-- Models `LayerDependentImportanceSampler.sample`: reject an empty budget
sequence (`ValueError`), loop over the reversed budgets feeding each layer's
selected sources to the next, keep only the pair
`(edge_index, edge_weight)` of every layer, and reverse the accumulated list
at the end (`layers[::-1]`). -/
def sample (smp : Sampler) (targets : List Nat) (budgets : List Nat)
    (draws : List (List Nat)) : Except PyError (List (List PyObj)) :=
  if budgets.length = 0 then .error .valueError
  else
    match sampleLoopFull smp targets budgets.reverse draws with
    | .error e => .error e
    | .ok rs =>
      .ok ((rs.map (fun r => [PyObj.tensorPairs r.edgeIndex, PyObj.tensorRat r.edgeWeight])).reverse)

/-- Concrete sampler over the single original edge `(0, 1)`; after self-loop
augmentation its edge set is `[(0, 1), (0, 0), (1, 1)]` with weights
`[1/4, 1/2, 1/2]`.  Used by the concrete witnesses. -/
def exSampler : Sampler := Sampler.construct [(0, 1)]

/-- The layer produced by `exSampler` for target set `{1}` and budget `2`
(deterministic: the two unique candidate sources fit the budget). -/
def exLayer : LayerSample := ⟨[(0, 1), (1, 1)], [1/2, 1/2], [0, 1], [0, 2]⟩

/-- Exactly one of three boolean flags is set. -/
def exactlyOneOfThree (a b c : Bool) : Prop :=
  (a = true ∧ b = false ∧ c = false)
    ∨ (a = false ∧ b = true ∧ c = false)
    ∨ (a = false ∧ b = false ∧ c = true)

/-- Python `int()` truncation toward zero of a rational. -/
def pyInt (q : ℚ) : Int :=
  if q < 0 then -(Int.floor (-q)) else Int.floor q

/-- Effective bound of the Python slice index `i` on a sequence of length `n`:
negative indices count from the end, and the result is clamped into `[0, n]`. -/
def sliceIdx (n : Nat) (i : Int) : Nat :=
  (min (max (if i < 0 then (n : Int) + i else i) 0) (n : Int)).toNat

/-- Python slice `l[a:b]`. -/
def pySlice {α : Type} (l : List α) (a b : Int) : List α :=
  let s := sliceIdx l.length a
  let e := sliceIdx l.length b
  (l.drop s).take (e - s)

/-- Models `index_to_mask` of `_general.py`. -/
def indexToMask (index : List Nat) (size : Nat) : List Bool :=
  (List.range size).map (fun i => decide (i ∈ index))

/-- Models `__random_split_masks` of `random_splits_mask`, given the
permutation returned by `torch.randperm(num_nodes)`: slice the permutation at
`int(num_nodes * train_ratio)` and `int(num_nodes * (train_ratio + val_ratio))`
and turn the three index slices into boolean masks. -/
def randomSplitMasks (perm : List Nat) (numNodes : Nat)
    (trainRatio valRatio : ℚ) : List Bool × List Bool × List Bool :=
  let t := pyInt ((numNodes : ℚ) * trainRatio)
  let v := pyInt ((numNodes : ℚ) * (trainRatio + valRatio))
  let trainIndex := pySlice perm 0 t
  let valIndex := pySlice perm t v
  let testIndex := pySlice perm v (perm.length : Int)
  (indexToMask trainIndex numNodes, indexToMask valIndex numNodes,
    indexToMask testIndex numNodes)

/-! ### Lemmas about the tensor-operation models -/

theorem uniqueSorted_cons (b : Nat) (bs : List Nat) :
    uniqueSorted (b :: bs) = insertSorted b (uniqueSorted bs) := rfl

theorem mem_insertSorted {a x : Nat} {l : List Nat} :
    a ∈ insertSorted x l ↔ a = x ∨ a ∈ l := by
  induction l with
  | nil => simp [insertSorted]
  | cons b bs ih =>
    by_cases h1 : x < b
    · simp [insertSorted, h1]
    · by_cases h2 : x = b
      · subst h2
        rw [insertSorted, if_neg h1, if_pos rfl, List.mem_cons]
        tauto
      · simp only [insertSorted, if_neg h1, if_neg h2, List.mem_cons, ih]
        tauto

theorem mem_uniqueSorted {a : Nat} {l : List Nat} : a ∈ uniqueSorted l ↔ a ∈ l := by
  induction l with
  | nil => simp [uniqueSorted]
  | cons b bs ih =>
    rw [uniqueSorted_cons, mem_insertSorted, ih, List.mem_cons]

theorem sorted_insertSorted {x : Nat} {l : List Nat} (h : l.Sorted (· < ·)) :
    (insertSorted x l).Sorted (· < ·) := by
  induction l with
  | nil => simp [insertSorted]
  | cons b bs ih =>
    rw [List.sorted_cons] at h
    by_cases h1 : x < b
    · rw [insertSorted, if_pos h1, List.sorted_cons]
      refine ⟨?_, List.sorted_cons.mpr h⟩
      intro c hc
      rcases List.mem_cons.mp hc with rfl | hc
      · exact h1
      · exact lt_trans h1 (h.1 c hc)
    · by_cases h2 : x = b
      · rw [insertSorted, if_neg h1, if_pos h2, List.sorted_cons]
        exact h
      · rw [insertSorted, if_neg h1, if_neg h2, List.sorted_cons]
        constructor
        · intro c hc
          rcases mem_insertSorted.mp hc with rfl | hc
          · omega
          · exact h.1 c hc
        · exact ih h.2

theorem sorted_uniqueSorted (l : List Nat) : (uniqueSorted l).Sorted (· < ·) := by
  induction l with
  | nil => exact List.sorted_nil
  | cons b bs ih =>
    rw [uniqueSorted_cons]
    exact sorted_insertSorted ih

theorem nodup_uniqueSorted (l : List Nat) : (uniqueSorted l).Nodup :=
  (sorted_uniqueSorted l).nodup

theorem uniqueSorted_eq_nil_iff {l : List Nat} : uniqueSorted l = [] ↔ l = [] := by
  constructor
  · intro h
    cases l with
    | nil => rfl
    | cons b bs =>
      exfalso
      have hb : b ∈ uniqueSorted (b :: bs) := mem_uniqueSorted.mpr (List.mem_cons_self b bs)
      rw [h] at hb
      exact List.not_mem_nil b hb
  · intro h
    subst h
    rfl

theorem length_insertSorted {x : Nat} {l : List Nat} :
    (insertSorted x l).length ≤ l.length + 1 := by
  induction l with
  | nil => simp [insertSorted]
  | cons b bs ih =>
    by_cases h1 : x < b
    · simp [insertSorted, h1]
    · by_cases h2 : x = b
      · simp [insertSorted, h1, h2]
      · simp only [insertSorted, if_neg h1, if_neg h2, List.length_cons]
        omega

theorem length_uniqueSorted_le (l : List Nat) : (uniqueSorted l).length ≤ l.length := by
  induction l with
  | nil => simp [uniqueSorted]
  | cons b bs ih =>
    rw [uniqueSorted_cons]
    calc (insertSorted b (uniqueSorted bs)).length
        ≤ (uniqueSorted bs).length + 1 := length_insertSorted
      _ ≤ bs.length + 1 := by omega
      _ = (b :: bs).length := rfl

theorem catLists_cons (h : List Nat) (t : List (List Nat)) :
    catLists (h :: t) = h ++ catLists t := rfl

theorem mem_catLists {a : Nat} {ls : List (List Nat)} :
    a ∈ catLists ls ↔ ∃ l ∈ ls, a ∈ l := by
  induction ls with
  | nil => simp [catLists]
  | cons h t ih =>
    rw [catLists_cons, List.mem_append, ih]
    simp

theorem getD_eq_getElem {α : Type} {l : List α} {i : Nat} (d : α) (h : i < l.length) :
    l.getD i d = l[i] := by
  simp [List.getD_eq_getElem?_getD, List.getElem?_eq_getElem h]

theorem getD_mem {α : Type} {l : List α} {i : Nat} {d : α} (h : i < l.length) :
    l.getD i d ∈ l := by
  rw [getD_eq_getElem d h]
  exact List.getElem_mem h

theorem maskSum_nil (t : Nat) (w : List ℚ) : maskSum t [] w = 0 := by
  cases w <;> rfl

theorem maskSum_nil_right (t : Nat) (ks : List Nat) : maskSum t ks [] = 0 := by
  cases ks <;> rfl

theorem maskSum_cons (t k : Nat) (ks : List Nat) (x : ℚ) (xs : List ℚ) :
    maskSum t (k :: ks) (x :: xs) = (if k = t then x else 0) + maskSum t ks xs := rfl

theorem maskSum_nonneg {t : Nat} {keys : List Nat} {w : List ℚ}
    (h : ∀ x ∈ w, 0 ≤ x) : 0 ≤ maskSum t keys w := by
  induction keys generalizing w with
  | nil => rw [maskSum_nil]
  | cons k ks ih =>
    cases w with
    | nil => rw [maskSum_nil_right]
    | cons x xs =>
      rw [maskSum_cons]
      have hx : 0 ≤ x := h x (List.mem_cons_self x xs)
      have hrest := ih (fun y hy => h y (List.mem_cons_of_mem x hy))
      by_cases hk : k = t
      · rw [if_pos hk]
        linarith
      · rw [if_neg hk]
        linarith

theorem maskSum_pos {t : Nat} {keys : List Nat} {w : List ℚ}
    (hlen : keys.length = w.length) (hmem : t ∈ keys) (h : ∀ x ∈ w, 0 < x) :
    0 < maskSum t keys w := by
  induction keys generalizing w with
  | nil => exact absurd hmem (List.not_mem_nil t)
  | cons k ks ih =>
    cases w with
    | nil => simp at hlen
    | cons x xs =>
      rw [maskSum_cons]
      have hlen2 : ks.length = xs.length := by simpa using hlen
      by_cases hk : k = t
      · rw [if_pos hk]
        have hx : 0 < x := h x (List.mem_cons_self x xs)
        have hrest : 0 ≤ maskSum t ks xs :=
          maskSum_nonneg (fun y hy => le_of_lt (h y (List.mem_cons_of_mem x hy)))
        linarith
      · rw [if_neg hk]
        have ht : t ∈ ks := by
          rcases List.mem_cons.mp hmem with h2 | h2
          · exact absurd h2.symm hk
          · exact h2
        have := ih hlen2 ht (fun y hy => h y (List.mem_cons_of_mem x hy))
        linarith

theorem maskSum_eq_zero_of_notin {s : Nat} {keys : List Nat} (h : s ∉ keys) :
    ∀ w : List ℚ, maskSum s keys w = 0 := by
  induction keys with
  | nil => intro w; exact maskSum_nil s w
  | cons k ks ih =>
    intro w
    cases w with
    | nil => exact maskSum_nil_right s (k :: ks)
    | cons x xs =>
      have hk : ¬ k = s := fun hq => h (hq ▸ List.mem_cons_self k ks)
      have hs : s ∉ ks := fun hq => h (List.mem_cons_of_mem k hq)
      rw [maskSum_cons, if_neg hk, ih hs xs]
      ring

theorem maskSum_map_self {s : Nat} {us : List Nat} (f : Nat → ℚ)
    (hnd : us.Nodup) (hs : s ∈ us) : maskSum s us (us.map f) = f s := by
  induction us with
  | nil => exact absurd hs (List.not_mem_nil s)
  | cons u t ih =>
    rcases List.nodup_cons.mp hnd with ⟨hnotin, hnd2⟩
    rw [List.map_cons, maskSum_cons]
    by_cases hu : u = s
    · subst hu
      rw [if_pos rfl, maskSum_eq_zero_of_notin hnotin]
      ring
    · rw [if_neg hu]
      have hs2 : s ∈ t := by
        rcases List.mem_cons.mp hs with h2 | h2
        · exact absurd h2.symm hu
        · exact h2
      rw [ih hnd2 hs2]
      ring

theorem sum_map_addPointwise {α : Type} (l : List α) (f g : α → ℚ) :
    (l.map (fun a => f a + g a)).sum = (l.map f).sum + (l.map g).sum := by
  induction l with
  | nil => simp
  | cons a t ih =>
    simp only [List.map_cons, List.sum_cons, ih]
    ring

theorem sum_map_indicator {k : Nat} {us : List Nat} (x : ℚ)
    (hnd : us.Nodup) (hk : k ∈ us) :
    (us.map (fun s => if k = s then x else 0)).sum = x := by
  induction us with
  | nil => exact absurd hk (List.not_mem_nil k)
  | cons u t ih =>
    rcases List.nodup_cons.mp hnd with ⟨hnotin, hnd2⟩
    rw [List.map_cons, List.sum_cons]
    by_cases hu : k = u
    · subst hu
      rw [if_pos rfl]
      have hz : (t.map (fun s => if k = s then x else 0)).sum = 0 := by
        apply List.sum_eq_zero
        intro y hy
        rcases List.mem_map.mp hy with ⟨s, hsmem, rfl⟩
        exact if_neg (fun (hks : k = s) => hnotin (hks ▸ hsmem))
      rw [hz]
      ring
    · rw [if_neg hu]
      have hk2 : k ∈ t := by
        rcases List.mem_cons.mp hk with h2 | h2
        · exact absurd h2 hu
        · exact h2
      rw [ih hnd2 hk2]
      ring

theorem sum_map_maskSum {us : List Nat} {keys : List Nat} {w : List ℚ}
    (hnd : us.Nodup) (hlen : keys.length = w.length) (hmem : ∀ k ∈ keys, k ∈ us) :
    (us.map (fun s => maskSum s keys w)).sum = w.sum := by
  induction keys generalizing w with
  | nil =>
    cases w with
    | nil =>
      simp only [List.sum_nil]
      apply List.sum_eq_zero
      intro y hy
      rcases List.mem_map.mp hy with ⟨s, hs, rfl⟩
      exact maskSum_nil s []
    | cons x xs => simp at hlen
  | cons k ks ih =>
    cases w with
    | nil => simp at hlen
    | cons x xs =>
      have hsplit : (us.map (fun s => maskSum s (k :: ks) (x :: xs))).sum
          = (us.map (fun s => if k = s then x else 0)).sum
            + (us.map (fun s => maskSum s ks xs)).sum := by
        rw [← sum_map_addPointwise]
        simp only [maskSum_cons]
      rw [hsplit, sum_map_indicator x hnd (hmem k (List.mem_cons_self k ks)),
        ih (by simpa using hlen) (fun k2 h2 => hmem k2 (List.mem_cons_of_mem k h2)),
        List.sum_cons]

theorem sum_map_div {α : Type} (l : List α) (f : α → ℚ) (c : ℚ) :
    (l.map (fun a => f a / c)).sum = (l.map f).sum / c := by
  induction l with
  | nil => simp
  | cons a t ih =>
    simp only [List.map_cons, List.sum_cons, ih]
    rw [add_div]

theorem stepDiv_nil_left (t : Nat) (s : ℚ) (w : List ℚ) : stepDiv t s [] w = [] := by
  cases w <;> rfl

theorem stepDiv_nil_right (t : Nat) (s : ℚ) (tgts : List Nat) : stepDiv t s tgts [] = [] := by
  cases tgts <;> rfl

theorem stepDiv_cons (t : Nat) (s : ℚ) (tg : Nat) (tgs : List Nat) (x : ℚ) (xs : List ℚ) :
    stepDiv t s (tg :: tgs) (x :: xs) = (if tg = t then x / s else x) :: stepDiv t s tgs xs := rfl

theorem length_stepDiv (t : Nat) (s : ℚ) :
    ∀ (tgts : List Nat) (w : List ℚ), (stepDiv t s tgts w).length = min tgts.length w.length := by
  intro tgts
  induction tgts with
  | nil => intro w; rw [stepDiv_nil_left]; simp
  | cons tg tgs ih =>
    intro w
    cases w with
    | nil => rw [stepDiv_nil_right]; simp
    | cons x xs =>
      rw [stepDiv_cons]
      simp only [List.length_cons, ih xs]
      omega

theorem maskSum_stepDiv_ne {u t : Nat} {s : ℚ} (hut : u ≠ t) :
    ∀ (tgts : List Nat) (w : List ℚ),
      maskSum u tgts (stepDiv t s tgts w) = maskSum u tgts w := by
  intro tgts
  induction tgts with
  | nil => intro w; rw [stepDiv_nil_left, maskSum_nil, maskSum_nil]
  | cons tg tgs ih =>
    intro w
    cases w with
    | nil => rw [stepDiv_nil_right]
    | cons x xs =>
      rw [stepDiv_cons, maskSum_cons, maskSum_cons, ih xs]
      by_cases htg : tg = u
      · subst htg
        have : ¬ tg = t := hut
        rw [if_pos rfl, if_pos rfl, if_neg this]
      · rw [if_neg htg, if_neg htg]

theorem normClosed_nil_right (ts a : List Nat) (b : List ℚ) (tgs : List Nat) :
    normClosed ts a b tgs [] = [] := by
  cases tgs <;> rfl

theorem normClosed_nil_ts (a : List Nat) (b : List ℚ) :
    ∀ (tgs : List Nat) (xs : List ℚ), tgs.length = xs.length →
      normClosed [] a b tgs xs = xs := by
  intro tgs
  induction tgs with
  | nil =>
    intro xs hlen
    cases xs with
    | nil => rfl
    | cons x xs => simp at hlen
  | cons tg tgs ih =>
    intro xs hlen
    cases xs with
    | nil => simp at hlen
    | cons x xs =>
      rw [normClosed, ih xs (by simpa using hlen)]
      simp

theorem normClosed_step {tgts : List Nat} {w : List ℚ} {t : Nat} {rest : List Nat}
    (hnotin : t ∉ rest) :
    ∀ (tgs : List Nat) (xs : List ℚ),
      normClosed rest tgts (stepDiv t (maskSum t tgts w) tgts w) tgs
          (stepDiv t (maskSum t tgts w) tgs xs)
        = normClosed (t :: rest) tgts w tgs xs := by
  intro tgs
  induction tgs with
  | nil => intro xs; rw [stepDiv_nil_left]; cases xs <;> rfl
  | cons tg tgs ih =>
    intro xs
    cases xs with
    | nil => rw [stepDiv_nil_right]; rfl
    | cons x xs =>
      rw [stepDiv_cons, normClosed, normClosed, ih xs]
      by_cases hmem : tg ∈ rest
      · have htg : ¬ tg = t := fun hq => hnotin (hq ▸ hmem)
        rw [if_neg htg, if_pos hmem, if_pos (List.mem_cons_of_mem t hmem),
          maskSum_stepDiv_ne htg]
      · by_cases htg : tg = t
        · subst htg
          rw [if_pos rfl, if_neg hmem, if_pos (List.mem_cons_self tg rest)]
        · rw [if_neg htg, if_neg hmem,
            if_neg (fun hq => (List.mem_cons.mp hq).elim htg hmem)]

theorem foldl_normalizeStep_closed {tgts : List Nat} :
    ∀ (ts : List Nat) (w : List ℚ), ts.Nodup → tgts.length = w.length →
      ts.foldl (fun acc t => normalizeStep tgts t acc) w = normClosed ts tgts w tgts w := by
  intro ts
  induction ts with
  | nil =>
    intro w _ hlen
    rw [List.foldl_nil, normClosed_nil_ts tgts w tgts w hlen]
  | cons t rest ih =>
    intro w hnd hlen
    rcases List.nodup_cons.mp hnd with ⟨hnotin, hnd2⟩
    rw [List.foldl_cons]
    have hlen1 : tgts.length = (normalizeStep tgts t w).length := by
      rw [normalizeStep, length_stepDiv]
      omega
    rw [ih (normalizeStep tgts t w) hnd2 hlen1]
    rw [normalizeStep]
    exact normClosed_step hnotin tgts w

theorem maskSum_normClosed {t : Nat} {ts tgts0 : List Nat} {w0 : List ℚ} (ht : t ∈ ts) :
    ∀ (tgs : List Nat) (xs : List ℚ),
      maskSum t tgs (normClosed ts tgts0 w0 tgs xs)
        = maskSum t tgs xs / maskSum t tgts0 w0 := by
  intro tgs
  induction tgs with
  | nil =>
    intro xs
    rw [maskSum_nil, maskSum_nil, zero_div]
  | cons tg tgs ih =>
    intro xs
    cases xs with
    | nil =>
      rw [normClosed_nil_right, maskSum_nil_right, zero_div]
    | cons x xs =>
      rw [normClosed, maskSum_cons, maskSum_cons, ih xs]
      by_cases htg : tg = t
      · subst htg
        rw [if_pos rfl, if_pos rfl, if_pos ht, div_add_div_same]
      · rw [if_neg htg, if_neg htg, zero_add, zero_add]

theorem normalize_sum_one {pairs : List (Nat × Nat)} {w : List ℚ} {t : Nat} {norm : List ℚ}
    (hok : normalizeEdgesWeightByTargetNodes pairs w = .ok norm)
    (hpos : ∀ x ∈ w, 0 < x)
    (ht : t ∈ pairs.map Prod.snd) :
    maskSum t (pairs.map Prod.snd) norm = 1 := by
  rw [normalizeEdgesWeightByTargetNodes] at hok
  by_cases hlen : pairs.length ≠ w.length
  · rw [if_pos hlen] at hok
    exact Except.noConfusion hok
  · rw [if_neg hlen] at hok
    have hlen2 : (pairs.map Prod.snd).length = w.length := by
      rw [List.length_map]
      exact not_not.mp hlen
    have hnorm := Except.ok.inj hok
    rw [← hnorm,
      foldl_normalizeStep_closed (uniqueSorted (pairs.map Prod.snd)) w
        (nodup_uniqueSorted (pairs.map Prod.snd)) hlen2,
      maskSum_normClosed (mem_uniqueSorted.mpr ht) (pairs.map Prod.snd) w]
    exact div_self (ne_of_gt (maskSum_pos hlen2 ht hpos))

theorem candidateEdgeIndexes_empty (edges : List (Nat × Nat)) :
    candidateEdgeIndexes edges [] = .error .runtimeError := rfl

theorem candidateEdgeIndexes_ok {edges : List (Nat × Nat)} {targets : List Nat}
    (h : targets ≠ []) :
    candidateEdgeIndexes edges targets
      = .ok (uniqueSorted (catLists ((uniqueSorted targets).map (fun t =>
          (List.range edges.length).filter
            (fun i => decide ((edges.getD i (0, 0)).2 = t)))))) := by
  simp only [candidateEdgeIndexes]
  rw [if_neg (fun hq => h (uniqueSorted_eq_nil_iff.mp hq))]

theorem mem_candidateEdgeIndexes {edges : List (Nat × Nat)} {targets : List Nat}
    {c : List Nat} (hok : candidateEdgeIndexes edges targets = .ok c) {i : Nat} :
    i ∈ c ↔ i < edges.length ∧ (edges.getD i (0, 0)).2 ∈ targets := by
  by_cases h : targets = []
  · subst h
    rw [candidateEdgeIndexes_empty] at hok
    exact Except.noConfusion hok
  · rw [candidateEdgeIndexes_ok h] at hok
    rw [← Except.ok.inj hok, mem_uniqueSorted, mem_catLists]
    constructor
    · rintro ⟨l, hl, hil⟩
      rcases List.mem_map.mp hl with ⟨t, htmem, rfl⟩
      rcases List.mem_filter.mp hil with ⟨hir, hdec⟩
      have hlt := List.mem_range.mp hir
      have heq : (edges.getD i (0, 0)).2 = t := of_decide_eq_true hdec
      exact ⟨hlt, heq ▸ mem_uniqueSorted.mp htmem⟩
    · rintro ⟨hlt, htgt⟩
      refine ⟨_, List.mem_map.mpr ⟨(edges.getD i (0, 0)).2, mem_uniqueSorted.mpr htgt, rfl⟩, ?_⟩
      exact List.mem_filter.mpr ⟨List.mem_range.mpr hlt, decide_eq_true rfl⟩

theorem filterSelectedEdges_ok {edges : List (Nat × Nat)} {S T : List Nat}
    (hS : S ≠ []) (hT : T ≠ []) :
    filterSelectedEdges edges S T
      = .ok ((List.range edges.length).filter (fun i =>
          decide ((edges.getD i (0, 0)).1 ∈ uniqueSorted S)
            && decide ((edges.getD i (0, 0)).2 ∈ uniqueSorted T))) := by
  simp only [filterSelectedEdges]
  rw [if_neg (fun hq => hS (uniqueSorted_eq_nil_iff.mp hq)),
    if_neg (fun hq => hT (uniqueSorted_eq_nil_iff.mp hq))]

theorem filterSelectedEdges_error_iff {edges : List (Nat × Nat)} {S T : List Nat} :
    (∃ e, filterSelectedEdges edges S T = .error e) ↔ S = [] ∨ T = [] := by
  constructor
  · rintro ⟨e, he⟩
    by_cases hS : S = []
    · exact Or.inl hS
    · by_cases hT : T = []
      · exact Or.inr hT
      · rw [filterSelectedEdges_ok hS hT] at he
        exact Except.noConfusion he
  · intro h
    rcases h with h | h
    · refine ⟨.runtimeError, ?_⟩
      simp only [filterSelectedEdges]
      rw [if_pos (by rw [h]; rfl)]
    · by_cases hS : uniqueSorted S = []
      · refine ⟨.runtimeError, ?_⟩
        simp only [filterSelectedEdges]
        rw [if_pos hS]
      · refine ⟨.runtimeError, ?_⟩
        simp only [filterSelectedEdges]
        rw [if_neg hS, if_pos (by rw [h]; rfl)]

theorem mem_filterSelectedEdges {edges : List (Nat × Nat)} {S T : List Nat}
    {sel : List Nat} (hok : filterSelectedEdges edges S T = .ok sel) {i : Nat} :
    i ∈ sel ↔ i < edges.length ∧ (edges.getD i (0, 0)).1 ∈ S ∧ (edges.getD i (0, 0)).2 ∈ T := by
  by_cases hS : S = []
  · rcases filterSelectedEdges_error_iff.mpr (Or.inl hS) with ⟨e, he⟩
    rw [he] at hok
    exact Except.noConfusion hok
  · by_cases hT : T = []
    · rcases filterSelectedEdges_error_iff.mpr (Or.inr hT) with ⟨e, he⟩
      rw [he] at hok
      exact Except.noConfusion hok
    · rw [filterSelectedEdges_ok hS hT] at hok
      rw [← Except.ok.inj hok, List.mem_filter, List.mem_range]
      constructor
      · rintro ⟨hlt, hdec⟩
        rcases Bool.and_eq_true_iff.mp hdec with ⟨h1, h2⟩
        exact ⟨hlt, mem_uniqueSorted.mp (of_decide_eq_true h1),
          mem_uniqueSorted.mp (of_decide_eq_true h2)⟩
      · rintro ⟨hlt, h1, h2⟩
        refine ⟨hlt, Bool.and_eq_true_iff.mpr
          ⟨decide_eq_true (mem_uniqueSorted.mpr h1), decide_eq_true (mem_uniqueSorted.mpr h2)⟩⟩

theorem getCandidate_fst (candIdx : List Nat) (edges : List (Nat × Nat)) (weights : List ℚ) :
    (getCandidateSourceNodesProbabilities candIdx edges weights).1
      = uniqueSorted (candIdx.map (fun i => (edges.getD i (0, 0)).1)) := rfl

theorem getCandidate_snd (candIdx : List Nat) (edges : List (Nat × Nat)) (weights : List ℚ) :
    (getCandidateSourceNodesProbabilities candIdx edges weights).2
      = (uniqueSorted (candIdx.map (fun i => (edges.getD i (0, 0)).1))).map
          (fun s => maskSum s (candIdx.map (fun i => (edges.getD i (0, 0)).1))
              (candIdx.map (fun i => weights.getD i 0))
            / (candIdx.map (fun i => weights.getD i 0)).sum) := rfl

theorem candW_pos {candIdx : List Nat} {edges : List (Nat × Nat)} {weights : List ℚ}
    (hlen : weights.length = edges.length)
    (hpos : ∀ x ∈ weights, 0 < x)
    (hmemc : ∀ i ∈ candIdx, i < edges.length) :
    ∀ x ∈ candIdx.map (fun i => weights.getD i 0), 0 < x := by
  intro x hx
  rcases List.mem_map.mp hx with ⟨i, hi, rfl⟩
  have hiw : i < weights.length := by
    rw [hlen]
    exact hmemc i hi
  exact hpos _ (getD_mem hiw)

theorem candidate_probabilities_sum_one {candIdx : List Nat}
    {edges : List (Nat × Nat)} {weights : List ℚ}
    (hlen : weights.length = edges.length)
    (hpos : ∀ x ∈ weights, 0 < x)
    (hmemc : ∀ i ∈ candIdx, i < edges.length)
    (hne : candIdx ≠ []) :
    ((getCandidateSourceNodesProbabilities candIdx edges weights).2).sum = 1 := by
  rw [getCandidate_snd]
  rw [sum_map_div]
  rw [sum_map_maskSum (nodup_uniqueSorted _)
    (by rw [List.length_map, List.length_map])
    (fun k hk => mem_uniqueSorted.mpr hk)]
  apply div_self
  apply ne_of_gt
  apply List.sum_pos
  · exact candW_pos hlen hpos hmemc
  · intro hq
    exact hne (List.map_eq_nil_iff.mp hq)

theorem le_foldr_max {v : Nat} {idx : List Nat} (h : v ∈ idx) : v ≤ idx.foldr max 0 := by
  induction idx with
  | nil => exact absurd h (List.not_mem_nil v)
  | cons a t ih =>
    rcases List.mem_cons.mp h with rfl | h2
    · simp only [List.foldr_cons]
      exact le_max_left _ _
    · simp only [List.foldr_cons]
      exact le_trans (ih h2) (le_max_right _ _)

theorem degreeCount_getD {idx : List Nat} {v : Nat} (h : v ∈ idx) :
    (degreeCount idx).getD v 0 = (idx.count v : ℚ) := by
  have hv : v < (List.range (idx.foldr max 0 + 1)).length := by
    rw [List.length_range]
    exact Nat.lt_succ_of_le (le_foldr_max h)
  rw [degreeCount, getD_eq_getElem 0 (by rw [List.length_map]; exact hv),
    List.getElem_map, List.getElem_range]

theorem length_computeEdgeWeights (edges : List (Nat × Nat)) :
    (computeEdgeWeights edges).length = edges.length := by
  simp only [computeEdgeWeights, List.length_zipWith, List.length_map]
  omega

theorem recipClamp_pos {q : ℚ} (h : 0 < q) : 0 < recipClamp q := by
  rw [recipClamp, if_neg (ne_of_gt h)]
  exact one_div_pos.mpr h

theorem computeEdgeWeights_getD {edges : List (Nat × Nat)} {k : Nat} (hk : k < edges.length) :
    (computeEdgeWeights edges).getD k 0
      = recipClamp (((edges.map Prod.fst).count (edges.getD k (0, 0)).1 : ℚ))
        * recipClamp (((edges.map Prod.snd).count (edges.getD k (0, 0)).2 : ℚ)) := by
  have hlen : k < (computeEdgeWeights edges).length := by
    rw [length_computeEdgeWeights]
    exact hk
  rw [getD_eq_getElem 0 hlen]
  simp only [computeEdgeWeights]
  rw [List.getElem_zipWith, List.getElem_map, List.getElem_map, List.getElem_map,
    List.getElem_map]
  have h1 : edges[k].1 ∈ edges.map Prod.fst :=
    List.mem_map.mpr ⟨edges[k], List.getElem_mem hk, rfl⟩
  have h2 : edges[k].2 ∈ edges.map Prod.snd :=
    List.mem_map.mpr ⟨edges[k], List.getElem_mem hk, rfl⟩
  rw [degreeCount_getD h1, degreeCount_getD h2, getD_eq_getElem (0, 0) hk]

theorem computeEdgeWeights_pos {edges : List (Nat × Nat)} :
    ∀ x ∈ computeEdgeWeights edges, 0 < x := by
  intro x hx
  rcases List.mem_iff_getElem.mp hx with ⟨k, hk, rfl⟩
  have hk2 : k < edges.length := by
    rw [length_computeEdgeWeights] at hk
    exact hk
  have hform := computeEdgeWeights_getD hk2
  rw [getD_eq_getElem 0 hk] at hform
  rw [hform]
  have hm1 : (edges.getD k (0, 0)).1 ∈ edges.map Prod.fst :=
    List.mem_map.mpr ⟨edges.getD k (0, 0), getD_mem hk2, rfl⟩
  have hm2 : (edges.getD k (0, 0)).2 ∈ edges.map Prod.snd :=
    List.mem_map.mpr ⟨edges.getD k (0, 0), getD_mem hk2, rfl⟩
  have hc1 : (0 : ℚ) < ((edges.map Prod.fst).count (edges.getD k (0, 0)).1 : ℚ) := by
    exact_mod_cast List.count_pos_iff.mpr hm1
  have hc2 : (0 : ℚ) < ((edges.map Prod.snd).count (edges.getD k (0, 0)).2 : ℚ) := by
    exact_mod_cast List.count_pos_iff.mpr hm2
  exact mul_pos (recipClamp_pos hc1) (recipClamp_pos hc2)

theorem construct_edges (e0 : List (Nat × Nat)) :
    (Sampler.construct e0).allEdgeIndexWithSelfLoops = addRemainingSelfLoops e0 := rfl

theorem construct_weights (e0 : List (Nat × Nat)) :
    (Sampler.construct e0).allEdgeWeights = computeEdgeWeights (addRemainingSelfLoops e0) := rfl

theorem maxNode_cons (a : Nat × Nat) (t : List (Nat × Nat)) :
    maxNode (a :: t) = max (max a.1 a.2) (maxNode t) := rfl

theorem endpoint_le_maxNode {e : Nat × Nat} {edges : List (Nat × Nat)} (h : e ∈ edges) :
    e.1 ≤ maxNode edges ∧ e.2 ≤ maxNode edges := by
  induction edges with
  | nil => exact absurd h (List.not_mem_nil e)
  | cons a t ih =>
    rcases List.mem_cons.mp h with rfl | h2
    · rw [maxNode_cons]
      exact ⟨le_trans (le_max_left _ _) (le_max_left _ _),
        le_trans (le_max_right _ _) (le_max_left _ _)⟩
    · rw [maxNode_cons]
      exact ⟨le_trans (ih h2).1 (le_max_right _ _),
        le_trans (ih h2).2 (le_max_right _ _)⟩

theorem selfLoop_mem_addRemaining {edges : List (Nat × Nat)} {v : Nat}
    (h : v ≤ maxNode edges) : (v, v) ∈ addRemainingSelfLoops edges := by
  rw [addRemainingSelfLoops]
  apply List.mem_append_right
  exact List.mem_map.mpr ⟨v, List.mem_range.mpr (Nat.lt_succ_of_le h), rfl⟩

theorem mem_addRemaining_le {edges : List (Nat × Nat)} {e : Nat × Nat}
    (h : e ∈ addRemainingSelfLoops edges) :
    e.1 ≤ maxNode edges ∧ e.2 ≤ maxNode edges := by
  rcases List.mem_append.mp h with h2 | h2
  · exact endpoint_le_maxNode (List.mem_of_mem_filter h2)
  · rcases List.mem_map.mp h2 with ⟨v, hv, rfl⟩
    have hle := Nat.lt_succ_iff.mp (List.mem_range.mp hv)
    exact ⟨hle, hle⟩

theorem getD_of_le {α : Type} {l : List α} {i : Nat} (d : α) (h : l.length ≤ i) :
    l.getD i d = d := by
  simp [List.getD_eq_getElem?_getD, List.getElem?_eq_none h]

theorem sampleLayer_ok_elim {smp : Sampler} {targets : List Nat} {budget : Nat}
    {draws : List Nat} {r : LayerSample}
    (hok : sampleLayer smp targets budget draws = .ok r) :
    ∃ candIdx selIdx0 : List Nat,
      candidateEdgeIndexes smp.allEdgeIndexWithSelfLoops targets = .ok candIdx
        ∧ r.selectedSourceNodes = selectSourceNodes
            (getCandidateSourceNodesProbabilities candIdx smp.allEdgeIndexWithSelfLoops
              smp.allEdgeWeights).1 budget draws
        ∧ filterSelectedEdges smp.allEdgeIndexWithSelfLoops r.selectedSourceNodes targets
            = .ok selIdx0
        ∧ r.selectedEdgeIndexes = uniqueSorted selIdx0
        ∧ r.edgeIndex = r.selectedEdgeIndexes.map
            (fun i => smp.allEdgeIndexWithSelfLoops.getD i (0, 0))
        ∧ normalizeEdgesWeightByTargetNodes r.edgeIndex
            (rawSelectedEdgeWeights smp.allEdgeWeights smp.allEdgeIndexWithSelfLoops
              r.selectedEdgeIndexes r.selectedSourceNodes
              (getCandidateSourceNodesProbabilities candIdx smp.allEdgeIndexWithSelfLoops
                smp.allEdgeWeights).1
              (getCandidateSourceNodesProbabilities candIdx smp.allEdgeIndexWithSelfLoops
                smp.allEdgeWeights).2)
            = .ok r.edgeWeight := by
  simp only [sampleLayer] at hok
  split at hok
  · exact Except.noConfusion hok
  next candIdx hc =>
    split at hok
    · exact Except.noConfusion hok
    next selIdx0 hf =>
      split at hok
      · exact Except.noConfusion hok
      next norm hn =>
        have hr := Except.ok.inj hok
        subst hr
        exact ⟨candIdx, selIdx0, hc, rfl, hf, rfl, rfl, hn⟩

theorem sampleLayer_ok_of_valid {E : List (Nat × Nat)} (W : List ℚ)
    {targets : List Nat} (budget : Nat) {draws : List Nat}
    (hloop : ∀ v, v ≤ maxNode E → (v, v) ∈ E)
    (ht : targets ≠ [])
    (htv : ∀ t ∈ targets, t ≤ maxNode E)
    (hd : draws ≠ []) :
    ∃ r, sampleLayer ⟨E, W⟩ targets budget draws = .ok r
      ∧ r.selectedSourceNodes ≠ []
      ∧ ∀ s ∈ r.selectedSourceNodes, s ≤ maxNode E := by
  obtain ⟨candIdx, hc⟩ : ∃ c, candidateEdgeIndexes E targets = .ok c :=
    ⟨_, candidateEdgeIndexes_ok ht⟩
  have hcne : candIdx ≠ [] := by
    cases targets with
    | nil => exact absurd rfl ht
    | cons t ts =>
      have htmem : t ∈ t :: ts := List.mem_cons_self t ts
      have hloopmem : (t, t) ∈ E := hloop t (htv t htmem)
      rcases List.mem_iff_getElem.mp hloopmem with ⟨j, hj, hje⟩
      have hjmem : j ∈ candIdx := by
        rw [mem_candidateEdgeIndexes hc]
        refine ⟨hj, ?_⟩
        rw [getD_eq_getElem (0, 0) hj, hje]
        exact htmem
      intro hnil
      rw [hnil] at hjmem
      exact List.not_mem_nil j hjmem
  obtain ⟨us, ps, husps⟩ : ∃ a b, getCandidateSourceNodesProbabilities candIdx E W = (a, b) :=
    ⟨_, _, rfl⟩
  have husfst : us = uniqueSorted (candIdx.map (fun i => (E.getD i (0, 0)).1)) := by
    have h1 := getCandidate_fst candIdx E W
    rw [husps] at h1
    exact h1
  have husne : us ≠ [] := by
    rw [husfst]
    intro hq
    exact hcne (List.map_eq_nil_iff.mp (uniqueSorted_eq_nil_iff.mp hq))
  have husbound : ∀ u ∈ us, u ≤ maxNode E := by
    intro u hu
    rw [husfst, mem_uniqueSorted] at hu
    rcases List.mem_map.mp hu with ⟨i, hi, rfl⟩
    have hilt : i < E.length := ((mem_candidateEdgeIndexes hc).mp hi).1
    exact (endpoint_le_maxNode (getD_mem hilt)).1
  have hSne : selectSourceNodes us budget draws ≠ [] := by
    rw [selectSourceNodes]
    by_cases hb : budget < us.length
    · rw [if_pos hb]
      intro hq
      have hdu : uniqueSorted draws = [] :=
        List.map_eq_nil_iff.mp (uniqueSorted_eq_nil_iff.mp hq)
      exact hd (uniqueSorted_eq_nil_iff.mp hdu)
    · rw [if_neg hb]
      exact husne
  have hSbound : ∀ s ∈ selectSourceNodes us budget draws, s ≤ maxNode E := by
    intro s hs
    rw [selectSourceNodes] at hs
    by_cases hb : budget < us.length
    · rw [if_pos hb, mem_uniqueSorted] at hs
      rcases List.mem_map.mp hs with ⟨i, hi, rfl⟩
      by_cases hilt : i < us.length
      · exact husbound _ (getD_mem hilt)
      · rw [getD_of_le 0 (le_of_not_lt hilt)]
        exact Nat.zero_le _
    · rw [if_neg hb] at hs
      exact husbound s hs
  obtain ⟨F, hfil⟩ :
      ∃ f, filterSelectedEdges E (selectSourceNodes us budget draws) targets = .ok f :=
    ⟨_, filterSelectedEdges_ok hSne ht⟩
  obtain ⟨norm, hn⟩ : ∃ n,
      normalizeEdgesWeightByTargetNodes
        ((uniqueSorted F).map (fun i => E.getD i (0, 0)))
        (rawSelectedEdgeWeights W E (uniqueSorted F)
          (selectSourceNodes us budget draws) us ps) = .ok n := by
    rw [normalizeEdgesWeightByTargetNodes]
    rw [if_neg (by
      simp only [List.length_map, rawSelectedEdgeWeights]
      exact fun hq => hq rfl)]
    exact ⟨_, rfl⟩
  refine ⟨⟨(uniqueSorted F).map (fun i => E.getD i (0, 0)), norm,
    selectSourceNodes us budget draws, uniqueSorted F⟩, ?_, hSne, hSbound⟩
  simp only [sampleLayer, hc, husps, hfil, hn]

theorem tail_getD {α : Type} (l : List α) (i : Nat) (d : α) :
    l.tail.getD i d = l.getD (i + 1) d := by
  cases l <;> rfl

theorem headD_eq_getD {α : Type} (l : List α) (d : α) : l.headD d = l.getD 0 d := by
  cases l <;> rfl

theorem sampleLoopFull_ok {E : List (Nat × Nat)} {W : List ℚ}
    (hloop : ∀ v, v ≤ maxNode E → (v, v) ∈ E) :
    ∀ (bs targets : List Nat) (ds : List (List Nat)),
      targets ≠ [] → (∀ t ∈ targets, t ≤ maxNode E) →
      (∀ i, i < bs.length → ds.getD i [] ≠ []) →
      ∃ rs, sampleLoopFull ⟨E, W⟩ targets bs ds = .ok rs ∧ rs.length = bs.length := by
  intro bs
  induction bs with
  | nil => exact fun targets ds ht htv hds => ⟨[], rfl, rfl⟩
  | cons b bs ih =>
    intro targets ds ht htv hds
    have hd0 : ds.headD [] ≠ [] := by
      rw [headD_eq_getD]
      exact hds 0 (by simp)
    obtain ⟨r, hr, hrne, hrbound⟩ := sampleLayer_ok_of_valid W b hloop ht htv hd0
    obtain ⟨rs, hrs, hlen⟩ := ih r.selectedSourceNodes ds.tail hrne hrbound
      (fun i hi => by
        rw [tail_getD]
        exact hds (i + 1) (by simpa using Nat.succ_lt_succ hi))
    refine ⟨r :: rs, ?_, by simp [hlen]⟩
    simp only [sampleLoopFull, hr, hrs]

theorem sample_ok_of_valid {E : List (Nat × Nat)} {W : List ℚ}
    {targets budgets : List Nat} {draws : List (List Nat)}
    (hloop : ∀ v, v ≤ maxNode E → (v, v) ∈ E)
    (ht : targets ≠ [])
    (htv : ∀ t ∈ targets, t ≤ maxNode E)
    (hb : budgets ≠ [])
    (hd : ∀ i, i < budgets.length → draws.getD i [] ≠ []) :
    ∃ rs, sampleLoopFull ⟨E, W⟩ targets budgets.reverse draws = .ok rs
      ∧ rs.length = budgets.length
      ∧ sample ⟨E, W⟩ targets budgets draws
          = .ok ((rs.map (fun r =>
              [PyObj.tensorPairs r.edgeIndex, PyObj.tensorRat r.edgeWeight])).reverse) := by
  obtain ⟨rs, hrs, hlen⟩ := sampleLoopFull_ok hloop budgets.reverse targets draws ht htv
    (fun i hi => hd i (by simpa using hi))
  refine ⟨rs, hrs, by simpa using hlen, ?_⟩
  have hbne : ¬ budgets.length = 0 := fun hq => hb (List.length_eq_zero.mp hq)
  simp only [sample, if_neg hbne, hrs]

theorem filterSelectedEdges_ok_nonempty {edges : List (Nat × Nat)} {S T sel : List Nat}
    (hok : filterSelectedEdges edges S T = .ok sel) : S ≠ [] ∧ T ≠ [] := by
  constructor
  · intro hq
    rcases filterSelectedEdges_error_iff.mpr (Or.inl hq) with ⟨e, he⟩
    rw [he] at hok
    exact Except.noConfusion hok
  · intro hq
    rcases filterSelectedEdges_error_iff.mpr (Or.inr hq) with ⟨e, he⟩
    rw [he] at hok
    exact Except.noConfusion hok

theorem nodup_selectSourceNodes {us : List Nat} {budget : Nat} {draws : List Nat}
    (h : us.Nodup) : (selectSourceNodes us budget draws).Nodup := by
  rw [selectSourceNodes]
  by_cases hb : budget < us.length
  · rw [if_pos hb]
    exact nodup_uniqueSorted _
  · rw [if_neg hb]
    exact h

theorem uniqueSorted_replicate {a : Nat} : ∀ {n : Nat}, 0 < n →
    uniqueSorted (List.replicate n a) = [a] := by
  intro n
  induction n with
  | zero => intro h; exact absurd h (lt_irrefl 0)
  | succ m ih =>
    intro _
    rw [List.replicate_succ]
    cases m with
    | zero => rfl
    | succ m2 =>
      have hm : uniqueSorted (List.replicate (m2 + 1) a) = [a] := ih (Nat.succ_pos m2)
      show insertSorted a (uniqueSorted (List.replicate (m2 + 1) a)) = [a]
      rw [hm, insertSorted, if_neg (lt_irrefl a), if_pos rfl]

theorem getD_map_of_lt {α β : Type} (f : α → β) {l : List α} {k : Nat}
    (h : k < l.length) (d0 : α) (d1 : β) : (l.map f).getD k d1 = f (l.getD k d0) := by
  rw [getD_eq_getElem d1 (by rw [List.length_map]; exact h), List.getElem_map,
    getD_eq_getElem d0 h]

theorem indexToMask_getD {idx : List Nat} {n i : Nat} (hi : i < n) :
    (indexToMask idx n).getD i false = decide (i ∈ idx) := by
  rw [indexToMask, getD_eq_getElem false (by rw [List.length_map, List.length_range]; exact hi),
    List.getElem_map, List.getElem_range]

theorem sliceIdx_of_nonneg {n : Nat} {i : Int} (h0 : 0 ≤ i) (hn : i ≤ (n : Int)) :
    sliceIdx n i = i.toNat := by
  rw [sliceIdx, if_neg (not_lt.mpr h0), max_eq_left h0, min_eq_left hn]

/-! ### Claim theorems -/

/-- C2 (counterexample): with an empty target-node set the layer-sampling step
does raise before any probability computation, but the exception is the
`RuntimeError` of `torch.cat` on an empty tensor list, not a `ValueError`. -/
theorem sampleLayer_empty_targets_cex :
    sampleLayer (Sampler.construct [(0, 1)]) [] 2 [] = .error .runtimeError
      ∧ PyError.runtimeError ≠ PyError.valueError :=
  ⟨rfl, by decide⟩

/-- C2 (amended): for every sampler instance, budget and draw list, calling the
layer-sampling step with an empty target-node set raises an error — the
`RuntimeError` of `torch.cat` applied to the empty list of per-target
`torch.where` results — before any probability computation is reached. -/
theorem sampleLayer_empty_targets_runtime_error (smp : Sampler) (budget : Nat)
    (draws : List Nat) : sampleLayer smp [] budget draws = .error .runtimeError := rfl

theorem uniqueSorted_singleton (a : Nat) : uniqueSorted [a] = [a] := rfl

/-- C4: in the per-layer selection step with a positive budget, if the number
of unique candidate sources is at most the budget the full unique candidate
source list is returned for every draw list (deterministically); otherwise the
drawn indices are deduplicated, so the selection is a duplicate-free subset of
the unique candidate sources of size at most the budget, and for a budget of
at least two there is a draw vector realizing a size strictly below the
budget. -/
theorem selection_step_spec {us : List Nat} {budget : Nat}
    (hnd : us.Nodup) (hb : 0 < budget) :
    (∀ draws : List Nat, us.length ≤ budget → selectSourceNodes us budget draws = us)
      ∧ (∀ draws : List Nat, budget < us.length → draws.length = budget →
          (∀ i ∈ draws, i < us.length) →
            (∀ s ∈ selectSourceNodes us budget draws, s ∈ us)
              ∧ (selectSourceNodes us budget draws).Nodup
              ∧ (selectSourceNodes us budget draws).length ≤ budget)
      ∧ (2 ≤ budget → budget < us.length →
          ∃ draws : List Nat, draws.length = budget ∧ (∀ i ∈ draws, i < us.length)
            ∧ (selectSourceNodes us budget draws).length < budget) := by
  refine ⟨?_, ?_, ?_⟩
  · intro draws hle
    rw [selectSourceNodes, if_neg (not_lt.mpr hle)]
  · intro draws hlt hdlen hdbound
    rw [selectSourceNodes, if_pos hlt]
    refine ⟨?_, nodup_uniqueSorted _, ?_⟩
    · intro s hs
      rw [mem_uniqueSorted] at hs
      rcases List.mem_map.mp hs with ⟨i, hi, rfl⟩
      exact getD_mem (hdbound i (mem_uniqueSorted.mp hi))
    · calc (uniqueSorted ((uniqueSorted draws).map (fun i => us.getD i 0))).length
          ≤ ((uniqueSorted draws).map (fun i => us.getD i 0)).length :=
            length_uniqueSorted_le _
        _ = (uniqueSorted draws).length := List.length_map _ _
        _ ≤ draws.length := length_uniqueSorted_le draws
        _ = budget := hdlen
  · intro h2 hlt
    refine ⟨List.replicate budget 0, List.length_replicate budget 0, ?_, ?_⟩
    · intro i hi
      rw [List.eq_of_mem_replicate hi]
      omega
    · rw [selectSourceNodes, if_pos hlt, uniqueSorted_replicate hb]
      simp only [List.map_cons, List.map_nil, uniqueSorted_singleton,
        List.length_cons, List.length_nil]
      omega

/-- Witness for C4 at the concrete unique candidate source list `[5, 7, 9]`
with budget `2`. -/
theorem selection_step_spec_witness :
    (∀ draws : List Nat, ([5, 7, 9] : List Nat).length ≤ 2 →
        selectSourceNodes [5, 7, 9] 2 draws = [5, 7, 9])
      ∧ (∀ draws : List Nat, 2 < ([5, 7, 9] : List Nat).length → draws.length = 2 →
          (∀ i ∈ draws, i < ([5, 7, 9] : List Nat).length) →
            (∀ s ∈ selectSourceNodes [5, 7, 9] 2 draws, s ∈ ([5, 7, 9] : List Nat))
              ∧ (selectSourceNodes [5, 7, 9] 2 draws).Nodup
              ∧ (selectSourceNodes [5, 7, 9] 2 draws).length ≤ 2)
      ∧ (2 ≤ 2 → 2 < ([5, 7, 9] : List Nat).length →
          ∃ draws : List Nat, draws.length = 2
            ∧ (∀ i ∈ draws, i < ([5, 7, 9] : List Nat).length)
            ∧ (selectSourceNodes [5, 7, 9] 2 draws).length < 2) :=
  selection_step_spec (by decide) (by decide)

/-- C5: in every successful layer sample, the selected edge-index set consists
of exactly those edge positions of the full self-loop-augmented edge set whose
source endpoint lies in the selected source-node set and whose target endpoint
lies in the current target-node set. -/
theorem selected_edges_characterization {smp : Sampler} {targets : List Nat}
    {budget : Nat} {draws : List Nat} {r : LayerSample}
    (hok : sampleLayer smp targets budget draws = .ok r) (i : Nat) :
    i ∈ r.selectedEdgeIndexes
      ↔ i < smp.allEdgeIndexWithSelfLoops.length
        ∧ (smp.allEdgeIndexWithSelfLoops.getD i (0, 0)).1 ∈ r.selectedSourceNodes
        ∧ (smp.allEdgeIndexWithSelfLoops.getD i (0, 0)).2 ∈ targets := by
  obtain ⟨candIdx, selIdx0, hc, hS, hf, hsel, hei, hn⟩ := sampleLayer_ok_elim hok
  rw [hsel, mem_uniqueSorted]
  exact mem_filterSelectedEdges hf

/-- Witness for C5 on the concrete sampler built from the single edge `(0, 1)`
with target set `{1}`, budget `2` and edge position `0`. -/
theorem selected_edges_characterization_witness :
    0 ∈ (⟨[(0, 1), (1, 1)], [1/2, 1/2], [0, 1], [0, 2]⟩ : LayerSample).selectedEdgeIndexes
      ↔ 0 < (Sampler.construct [(0, 1)]).allEdgeIndexWithSelfLoops.length
        ∧ ((Sampler.construct [(0, 1)]).allEdgeIndexWithSelfLoops.getD 0 (0, 0)).1
            ∈ (⟨[(0, 1), (1, 1)], [1/2, 1/2], [0, 1], [0, 2]⟩ : LayerSample).selectedSourceNodes
        ∧ ((Sampler.construct [(0, 1)]).allEdgeIndexWithSelfLoops.getD 0 (0, 0)).2
            ∈ ([1] : List Nat) :=
  @selected_edges_characterization (Sampler.construct [(0, 1)]) [1] 2 []
    ⟨[(0, 1), (1, 1)], [1/2, 1/2], [0, 1], [0, 2]⟩ (by decide) 0

/-- C3: in every successful layer sample, the pre-normalization weight of the
`k`-th selected edge equals the stored weight of that edge divided by the
product of the number of distinct selected source nodes (the realized unique
count, not the nominal budget) and the candidate-source probability of the
edge's source — the candidate weight mass of that source over the total
candidate weight mass. -/
theorem raw_weight_ht_formula {smp : Sampler} {targets : List Nat} {budget : Nat}
    {draws : List Nat} {r : LayerSample} {candIdx : List Nat} {k : Nat}
    (hok : sampleLayer smp targets budget draws = .ok r)
    (hc : candidateEdgeIndexes smp.allEdgeIndexWithSelfLoops targets = .ok candIdx)
    (hk : k < r.selectedEdgeIndexes.length) :
    (rawSelectedEdgeWeights smp.allEdgeWeights smp.allEdgeIndexWithSelfLoops
        r.selectedEdgeIndexes r.selectedSourceNodes
        (getCandidateSourceNodesProbabilities candIdx smp.allEdgeIndexWithSelfLoops
          smp.allEdgeWeights).1
        (getCandidateSourceNodesProbabilities candIdx smp.allEdgeIndexWithSelfLoops
          smp.allEdgeWeights).2).getD k 0
      = smp.allEdgeWeights.getD (r.selectedEdgeIndexes.getD k 0) 0
        / ((r.selectedSourceNodes.toFinset.card : ℚ)
          * (maskSum
              (smp.allEdgeIndexWithSelfLoops.getD (r.selectedEdgeIndexes.getD k 0) (0, 0)).1
              (candIdx.map (fun i => (smp.allEdgeIndexWithSelfLoops.getD i (0, 0)).1))
              (candIdx.map (fun i => smp.allEdgeWeights.getD i 0))
            / (candIdx.map (fun i => smp.allEdgeWeights.getD i 0)).sum)) := by
  obtain ⟨candIdx2, selIdx0, hc2, hS, hf, hsel, hei, hn⟩ := sampleLayer_ok_elim hok
  have hceq : candIdx2 = candIdx := Except.ok.inj (hc2.symm.trans hc)
  subst hceq
  have husnd : (getCandidateSourceNodesProbabilities candIdx2
      smp.allEdgeIndexWithSelfLoops smp.allEdgeWeights).1.Nodup := by
    rw [getCandidate_fst]
    exact nodup_uniqueSorted _
  have hSnodup : r.selectedSourceNodes.Nodup := by
    rw [hS]
    exact nodup_selectSourceNodes husnd
  have he_mem : r.selectedEdgeIndexes.getD k 0 ∈ uniqueSorted selIdx0 := by
    rw [← hsel]
    exact getD_mem hk
  obtain ⟨helt, hsrcS, htgtT⟩ :=
    (mem_filterSelectedEdges hf).mp (mem_uniqueSorted.mp he_mem)
  have he_cand : r.selectedEdgeIndexes.getD k 0 ∈ candIdx2 :=
    (mem_candidateEdgeIndexes hc2).mpr ⟨helt, htgtT⟩
  have hsrc_mem :
      (smp.allEdgeIndexWithSelfLoops.getD (r.selectedEdgeIndexes.getD k 0) (0, 0)).1
        ∈ candIdx2.map (fun i => (smp.allEdgeIndexWithSelfLoops.getD i (0, 0)).1) :=
    List.mem_map.mpr ⟨r.selectedEdgeIndexes.getD k 0, he_cand, rfl⟩
  rw [rawSelectedEdgeWeights, getD_map_of_lt _ hk 0 0, getCandidate_fst, getCandidate_snd,
    maskSum_map_self _ (nodup_uniqueSorted _) (mem_uniqueSorted.mpr hsrc_mem),
    List.toFinset_card_of_nodup hSnodup]

/-- Witness for C3 on the concrete sampler with target set `{1}`, budget `2`
and selected-edge position `0`. -/
theorem raw_weight_ht_formula_witness :
    (rawSelectedEdgeWeights exSampler.allEdgeWeights exSampler.allEdgeIndexWithSelfLoops
        exLayer.selectedEdgeIndexes exLayer.selectedSourceNodes
        (getCandidateSourceNodesProbabilities [0, 2] exSampler.allEdgeIndexWithSelfLoops
          exSampler.allEdgeWeights).1
        (getCandidateSourceNodesProbabilities [0, 2] exSampler.allEdgeIndexWithSelfLoops
          exSampler.allEdgeWeights).2).getD 0 0
      = exSampler.allEdgeWeights.getD (exLayer.selectedEdgeIndexes.getD 0 0) 0
        / ((exLayer.selectedSourceNodes.toFinset.card : ℚ)
          * (maskSum
              (exSampler.allEdgeIndexWithSelfLoops.getD
                (exLayer.selectedEdgeIndexes.getD 0 0) (0, 0)).1
              (([0, 2] : List Nat).map
                (fun i => (exSampler.allEdgeIndexWithSelfLoops.getD i (0, 0)).1))
              (([0, 2] : List Nat).map (fun i => exSampler.allEdgeWeights.getD i 0))
            / (([0, 2] : List Nat).map (fun i => exSampler.allEdgeWeights.getD i 0)).sum)) :=
  @raw_weight_ht_formula exSampler [1] 2 [] exLayer [0, 2] 0
    (by decide) (by decide) (by decide)

/-- C7: in every successful layer sample of a sampler with positive edge
weights, for every node `t` occurring as the target of a selected edge, the
normalized weights of the selected edges with target `t` sum to exactly `1`. -/
theorem normalized_weights_sum_one {smp : Sampler} {targets : List Nat} {budget : Nat}
    {draws : List Nat} {r : LayerSample} {t : Nat}
    (hw : ∀ x ∈ smp.allEdgeWeights, 0 < x)
    (hlen : smp.allEdgeWeights.length = smp.allEdgeIndexWithSelfLoops.length)
    (hok : sampleLayer smp targets budget draws = .ok r)
    (ht : t ∈ r.edgeIndex.map Prod.snd) :
    maskSum t (r.edgeIndex.map Prod.snd) r.edgeWeight = 1 := by
  obtain ⟨candIdx, selIdx0, hc, hS, hf, hsel, hei, hn⟩ := sampleLayer_ok_elim hok
  refine normalize_sum_one hn ?_ ht
  intro x hx
  rw [rawSelectedEdgeWeights] at hx
  rcases List.mem_map.mp hx with ⟨e, he, rfl⟩
  obtain ⟨helt, hsrcS, htgtT⟩ :=
    (mem_filterSelectedEdges hf).mp (mem_uniqueSorted.mp (hsel ▸ he))
  have he_cand : e ∈ candIdx := (mem_candidateEdgeIndexes hc).mpr ⟨helt, htgtT⟩
  have hcand_lt : ∀ i ∈ candIdx, i < smp.allEdgeIndexWithSelfLoops.length :=
    fun i hi => ((mem_candidateEdgeIndexes hc).mp hi).1
  have hwpos : 0 < smp.allEdgeWeights.getD e 0 :=
    hw _ (getD_mem (by rw [hlen]; exact helt))
  have hSlen : (0 : ℚ) < (r.selectedSourceNodes.length : ℚ) := by
    exact_mod_cast List.length_pos.mpr (filterSelectedEdges_ok_nonempty hf).1
  have hsrc_mem :
      (smp.allEdgeIndexWithSelfLoops.getD e (0, 0)).1
        ∈ candIdx.map (fun i => (smp.allEdgeIndexWithSelfLoops.getD i (0, 0)).1) :=
    List.mem_map.mpr ⟨e, he_cand, rfl⟩
  have hppos : 0 < maskSum (smp.allEdgeIndexWithSelfLoops.getD e (0, 0)).1
      (getCandidateSourceNodesProbabilities candIdx smp.allEdgeIndexWithSelfLoops
        smp.allEdgeWeights).1
      (getCandidateSourceNodesProbabilities candIdx smp.allEdgeIndexWithSelfLoops
        smp.allEdgeWeights).2 := by
    rw [getCandidate_fst, getCandidate_snd,
      maskSum_map_self _ (nodup_uniqueSorted _) (mem_uniqueSorted.mpr hsrc_mem)]
    refine div_pos (maskSum_pos (by rw [List.length_map, List.length_map]) hsrc_mem
      (candW_pos hlen hw hcand_lt)) ?_
    refine List.sum_pos _ (candW_pos hlen hw hcand_lt) ?_
    intro hq
    have hcnil : candIdx = [] := List.map_eq_nil_iff.mp hq
    rw [hcnil] at he_cand
    exact List.not_mem_nil e he_cand
  exact div_pos hwpos (mul_pos hSlen hppos)

/-- Witness for C7 on the concrete sampler with target set `{1}`, budget `2`
and target node `1`. -/
theorem normalized_weights_sum_one_witness :
    maskSum 1 (exLayer.edgeIndex.map Prod.snd) exLayer.edgeWeight = 1 :=
  @normalized_weights_sum_one exSampler [1] 2 [] exLayer 1
    (by decide) (by decide) (by decide) (by decide)

/-- C6: for a target-node set that is the target of at least one edge, the
candidate-source probability of each unique candidate source node equals the
total weight of the candidate edges with that source divided by the total
weight of all candidate edges, and the probabilities sum to exactly `1`. -/
theorem candidate_probabilities_spec {E : List (Nat × Nat)} {W : List ℚ}
    {targets : List Nat} {candIdx : List Nat}
    (hw : ∀ x ∈ W, 0 < x) (hlen : W.length = E.length)
    (hc : candidateEdgeIndexes E targets = .ok candIdx)
    (hcand : ∃ i, i < E.length ∧ (E.getD i (0, 0)).2 ∈ targets) :
    (∀ s ∈ (getCandidateSourceNodesProbabilities candIdx E W).1,
        maskSum s (getCandidateSourceNodesProbabilities candIdx E W).1
            (getCandidateSourceNodesProbabilities candIdx E W).2
          = maskSum s (candIdx.map (fun i => (E.getD i (0, 0)).1))
              (candIdx.map (fun i => W.getD i 0))
            / (candIdx.map (fun i => W.getD i 0)).sum)
      ∧ ((getCandidateSourceNodesProbabilities candIdx E W).2).sum = 1 := by
  have hmemc : ∀ i ∈ candIdx, i < E.length :=
    fun i hi => ((mem_candidateEdgeIndexes hc).mp hi).1
  have hne : candIdx ≠ [] := by
    rcases hcand with ⟨i, hilt, hit⟩
    have hmem : i ∈ candIdx := (mem_candidateEdgeIndexes hc).mpr ⟨hilt, hit⟩
    intro hq
    rw [hq] at hmem
    exact List.not_mem_nil i hmem
  constructor
  · intro s hs
    rw [getCandidate_fst] at hs
    rw [getCandidate_fst, getCandidate_snd, maskSum_map_self _ (nodup_uniqueSorted _) hs]
  · exact candidate_probabilities_sum_one hlen hw hmemc hne

/-- Witness for C6 on the concrete sampler with target set `{1}` (candidate
edge indexes `[0, 2]`). -/
theorem candidate_probabilities_spec_witness :
    (∀ s ∈ (getCandidateSourceNodesProbabilities [0, 2]
        exSampler.allEdgeIndexWithSelfLoops exSampler.allEdgeWeights).1,
        maskSum s (getCandidateSourceNodesProbabilities [0, 2]
            exSampler.allEdgeIndexWithSelfLoops exSampler.allEdgeWeights).1
            (getCandidateSourceNodesProbabilities [0, 2]
              exSampler.allEdgeIndexWithSelfLoops exSampler.allEdgeWeights).2
          = maskSum s
              (([0, 2] : List Nat).map
                (fun i => (exSampler.allEdgeIndexWithSelfLoops.getD i (0, 0)).1))
              (([0, 2] : List Nat).map (fun i => exSampler.allEdgeWeights.getD i 0))
            / (([0, 2] : List Nat).map (fun i => exSampler.allEdgeWeights.getD i 0)).sum)
      ∧ ((getCandidateSourceNodesProbabilities [0, 2]
          exSampler.allEdgeIndexWithSelfLoops exSampler.allEdgeWeights).2).sum = 1 :=
  @candidate_probabilities_spec exSampler.allEdgeIndexWithSelfLoops
    exSampler.allEdgeWeights [1] [0, 2] (by decide) (by decide) (by decide)
    ⟨0, by decide⟩

/-- C8: every edge of the self-loop-augmented edge set of a constructed
sampler has out-degree and in-degree counts at least one at its endpoints, and
its precomputed weight equals the product of the clamped reciprocals of those
occurrence counts — hence, the clamp never firing, exactly
`(1 / outdeg(src)) * (1 / indeg(tgt))`. -/
theorem edge_weight_formula {e0 : List (Nat × Nat)} {k : Nat}
    (hk : k < (Sampler.construct e0).allEdgeIndexWithSelfLoops.length) :
    0 < ((Sampler.construct e0).allEdgeIndexWithSelfLoops.map Prod.fst).count
        ((Sampler.construct e0).allEdgeIndexWithSelfLoops.getD k (0, 0)).1
      ∧ 0 < ((Sampler.construct e0).allEdgeIndexWithSelfLoops.map Prod.snd).count
          ((Sampler.construct e0).allEdgeIndexWithSelfLoops.getD k (0, 0)).2
      ∧ (Sampler.construct e0).allEdgeWeights.getD k 0
          = recipClamp (((Sampler.construct e0).allEdgeIndexWithSelfLoops.map Prod.fst).count
                ((Sampler.construct e0).allEdgeIndexWithSelfLoops.getD k (0, 0)).1 : ℚ)
            * recipClamp (((Sampler.construct e0).allEdgeIndexWithSelfLoops.map Prod.snd).count
                ((Sampler.construct e0).allEdgeIndexWithSelfLoops.getD k (0, 0)).2 : ℚ)
      ∧ (Sampler.construct e0).allEdgeWeights.getD k 0
          = (1 / (((Sampler.construct e0).allEdgeIndexWithSelfLoops.map Prod.fst).count
                ((Sampler.construct e0).allEdgeIndexWithSelfLoops.getD k (0, 0)).1 : ℚ))
            * (1 / (((Sampler.construct e0).allEdgeIndexWithSelfLoops.map Prod.snd).count
                ((Sampler.construct e0).allEdgeIndexWithSelfLoops.getD k (0, 0)).2 : ℚ)) := by
  simp only [construct_edges, construct_weights] at hk ⊢
  have hmem : (addRemainingSelfLoops e0).getD k (0, 0) ∈ addRemainingSelfLoops e0 :=
    getD_mem hk
  have h1 : 0 < ((addRemainingSelfLoops e0).map Prod.fst).count
      ((addRemainingSelfLoops e0).getD k (0, 0)).1 :=
    List.count_pos_iff.mpr (List.mem_map.mpr ⟨_, hmem, rfl⟩)
  have h2 : 0 < ((addRemainingSelfLoops e0).map Prod.snd).count
      ((addRemainingSelfLoops e0).getD k (0, 0)).2 :=
    List.count_pos_iff.mpr (List.mem_map.mpr ⟨_, hmem, rfl⟩)
  have hform := computeEdgeWeights_getD hk
  refine ⟨h1, h2, hform, ?_⟩
  rw [hform, recipClamp, recipClamp,
    if_neg (Nat.cast_ne_zero.mpr (Nat.pos_iff_ne_zero.mp h1)),
    if_neg (Nat.cast_ne_zero.mpr (Nat.pos_iff_ne_zero.mp h2))]

/-- Witness for C8 on the sampler built from the single edge `(0, 1)`, at edge
position `0`. -/
theorem edge_weight_formula_witness :
    0 < ((Sampler.construct [(0, 1)]).allEdgeIndexWithSelfLoops.map Prod.fst).count
        ((Sampler.construct [(0, 1)]).allEdgeIndexWithSelfLoops.getD 0 (0, 0)).1
      ∧ 0 < ((Sampler.construct [(0, 1)]).allEdgeIndexWithSelfLoops.map Prod.snd).count
          ((Sampler.construct [(0, 1)]).allEdgeIndexWithSelfLoops.getD 0 (0, 0)).2
      ∧ (Sampler.construct [(0, 1)]).allEdgeWeights.getD 0 0
          = recipClamp (((Sampler.construct [(0, 1)]).allEdgeIndexWithSelfLoops.map Prod.fst).count
                ((Sampler.construct [(0, 1)]).allEdgeIndexWithSelfLoops.getD 0 (0, 0)).1 : ℚ)
            * recipClamp (((Sampler.construct [(0, 1)]).allEdgeIndexWithSelfLoops.map Prod.snd).count
                ((Sampler.construct [(0, 1)]).allEdgeIndexWithSelfLoops.getD 0 (0, 0)).2 : ℚ)
      ∧ (Sampler.construct [(0, 1)]).allEdgeWeights.getD 0 0
          = (1 / (((Sampler.construct [(0, 1)]).allEdgeIndexWithSelfLoops.map Prod.fst).count
                ((Sampler.construct [(0, 1)]).allEdgeIndexWithSelfLoops.getD 0 (0, 0)).1 : ℚ))
            * (1 / (((Sampler.construct [(0, 1)]).allEdgeIndexWithSelfLoops.map Prod.snd).count
                ((Sampler.construct [(0, 1)]).allEdgeIndexWithSelfLoops.getD 0 (0, 0)).2 : ℚ)) :=
  @edge_weight_formula [(0, 1)] 0 (by decide)

/-- C9: after the self-loop augmentation performed at construction on a
non-empty edge index, every node occurring as an endpoint of the resulting
edge set has out-degree at least `1` and in-degree at least `1` (degrees being
occurrence counts in the source and target columns). -/
theorem self_loop_degree_spec {e0 : List (Nat × Nat)} (hne : e0 ≠ []) {v : Nat}
    (hv : v ∈ (addRemainingSelfLoops e0).map Prod.fst
        ∨ v ∈ (addRemainingSelfLoops e0).map Prod.snd) :
    1 ≤ ((addRemainingSelfLoops e0).map Prod.fst).count v
      ∧ 1 ≤ ((addRemainingSelfLoops e0).map Prod.snd).count v := by
  have hvle : v ≤ maxNode e0 := by
    rcases hv with h | h
    · rcases List.mem_map.mp h with ⟨e, he, rfl⟩
      exact (mem_addRemaining_le he).1
    · rcases List.mem_map.mp h with ⟨e, he, rfl⟩
      exact (mem_addRemaining_le he).2
  have hloopmem : ((v, v) : Nat × Nat) ∈ addRemainingSelfLoops e0 :=
    selfLoop_mem_addRemaining hvle
  exact ⟨List.count_pos_iff.mpr (List.mem_map.mpr ⟨(v, v), hloopmem, rfl⟩),
    List.count_pos_iff.mpr (List.mem_map.mpr ⟨(v, v), hloopmem, rfl⟩)⟩

/-- Witness for C9 on the edge index `[(0, 1)]` and node `1`. -/
theorem self_loop_degree_spec_witness :
    1 ≤ ((addRemainingSelfLoops [(0, 1)]).map Prod.fst).count 1
      ∧ 1 ≤ ((addRemainingSelfLoops [(0, 1)]).map Prod.snd).count 1 :=
  @self_loop_degree_spec [(0, 1)] (by decide) 1 (Or.inl (by decide))

/-- C1 (counterexample): on the concrete sampler, `sample` returns its single
layer as the 2-component pair `(edge_index, edge_weight)`, not the 4-tuple
`(edge_index, edge_weight, selected_source_nodes, selected_edge_indexes)`. -/
theorem sample_returns_pairs_cex :
    sample exSampler [1] [2] [[]]
        = .ok [[PyObj.tensorPairs [(0, 1), (1, 1)], PyObj.tensorRat [1/2, 1/2]]]
      ∧ ([PyObj.tensorPairs [(0, 1), (1, 1)],
          PyObj.tensorRat [1/2, 1/2]] : List PyObj).length ≠ 4 :=
  ⟨by decide, by decide⟩

/-- C1 (amended): for a self-loop-closed edge set, a non-empty valid
target-node set, a non-empty budget sequence and per-layer draw lists,
`sample` succeeds and returns exactly `budgets.length` layer results, namely
the reversal of the internally produced output-to-input layer sequence, each
layer carrying exactly the two components `(edge_index, edge_weight)` of the
corresponding internal 4-tuple. -/
theorem sample_returns_ordered_pairs {E : List (Nat × Nat)} {W : List ℚ}
    {targets budgets : List Nat} {draws : List (List Nat)}
    (hloop : ∀ v, v ≤ maxNode E → (v, v) ∈ E)
    (ht : targets ≠ [])
    (htv : ∀ t ∈ targets, t ≤ maxNode E)
    (hb : budgets ≠ [])
    (hd : ∀ i, i < budgets.length → draws.getD i [] ≠ []) :
    ∃ rs : List LayerSample,
      sampleLoopFull ⟨E, W⟩ targets budgets.reverse draws = .ok rs
        ∧ rs.length = budgets.length
        ∧ sample ⟨E, W⟩ targets budgets draws
            = .ok ((rs.map (fun r =>
                [PyObj.tensorPairs r.edgeIndex, PyObj.tensorRat r.edgeWeight])).reverse)
        ∧ ((rs.map (fun r =>
              [PyObj.tensorPairs r.edgeIndex, PyObj.tensorRat r.edgeWeight])).reverse).length
            = budgets.length
        ∧ ∀ layer ∈ (rs.map (fun r =>
            [PyObj.tensorPairs r.edgeIndex, PyObj.tensorRat r.edgeWeight])).reverse,
            layer.length = 2 := by
  obtain ⟨rs, h1, h2, h3⟩ := sample_ok_of_valid hloop ht htv hb hd
  refine ⟨rs, h1, h2, h3, ?_, ?_⟩
  · rw [List.length_reverse, List.length_map]
    exact h2
  · intro layer hl
    rw [List.mem_reverse] at hl
    rcases List.mem_map.mp hl with ⟨r, _, rfl⟩
    rfl

/-- Witness for C1 (amended) on the concrete sampler: edge set
`[(0, 1), (0, 0), (1, 1)]`, weights `[1/4, 1/2, 1/2]`, target set `{1}`, one
layer of budget `2`, draw list `[0]`. -/
theorem sample_returns_ordered_pairs_witness :
    ∃ rs : List LayerSample,
      sampleLoopFull ⟨[(0, 1), (0, 0), (1, 1)], [1/4, 1/2, 1/2]⟩ [1]
          ([2] : List Nat).reverse [[0]] = .ok rs
        ∧ rs.length = ([2] : List Nat).length
        ∧ sample ⟨[(0, 1), (0, 0), (1, 1)], [1/4, 1/2, 1/2]⟩ [1] [2] [[0]]
            = .ok ((rs.map (fun r =>
                [PyObj.tensorPairs r.edgeIndex, PyObj.tensorRat r.edgeWeight])).reverse)
        ∧ ((rs.map (fun r =>
              [PyObj.tensorPairs r.edgeIndex, PyObj.tensorRat r.edgeWeight])).reverse).length
            = ([2] : List Nat).length
        ∧ ∀ layer ∈ (rs.map (fun r =>
            [PyObj.tensorPairs r.edgeIndex, PyObj.tensorRat r.edgeWeight])).reverse,
            layer.length = 2 :=
  @sample_returns_ordered_pairs [(0, 1), (0, 0), (1, 1)] [1/4, 1/2, 1/2] [1] [2] [[0]]
    (by decide) (by decide) (by decide) (by decide) (by decide)

theorem masks_partition_core {perm : List Nat} {n a b : Nat}
    (hperm : perm.Perm (List.range n)) (hab : a ≤ b)
    {i : Nat} (hi : i < n) :
    exactlyOneOfThree
      ((indexToMask (perm.take a) n).getD i false)
      ((indexToMask ((perm.drop a).take (b - a)) n).getD i false)
      ((indexToMask (perm.drop b) n).getD i false) := by
  have hnd : perm.Nodup := hperm.nodup_iff.mpr (List.nodup_range n)
  have himem : i ∈ perm := hperm.mem_iff.mpr (List.mem_range.mpr hi)
  have h2 : (perm.drop a).drop (b - a) = perm.drop b := by
    rw [List.drop_drop]
    congr 1
    omega
  have hsplit : perm.take a ++ ((perm.drop a).take (b - a) ++ perm.drop b) = perm := by
    conv_lhs => rw [← h2, List.take_append_drop, List.take_append_drop]
  have hnd2 : (perm.take a ++ ((perm.drop a).take (b - a) ++ perm.drop b)).Nodup := by
    rw [hsplit]
    exact hnd
  have dA_BC := List.disjoint_of_nodup_append hnd2
  have nodBC := (List.nodup_append.mp hnd2).2.1
  have dBC := List.disjoint_of_nodup_append nodBC
  have hmem3 : i ∈ perm.take a ∨ i ∈ (perm.drop a).take (b - a) ∨ i ∈ perm.drop b := by
    have hin : i ∈ perm.take a ++ ((perm.drop a).take (b - a) ++ perm.drop b) := by
      rw [hsplit]
      exact himem
    simpa [List.mem_append] using hin
  rw [indexToMask_getD hi, indexToMask_getD hi, indexToMask_getD hi]
  simp only [exactlyOneOfThree, decide_eq_true_eq, decide_eq_false_iff_not]
  rcases hmem3 with h | h | h
  · exact Or.inl ⟨h,
      fun hmB => dA_BC h (List.mem_append_left _ hmB),
      fun hmC => dA_BC h (List.mem_append_right _ hmC)⟩
  · exact Or.inr (Or.inl ⟨fun hmA => dA_BC hmA (List.mem_append_left _ h), h,
      fun hmC => dBC h hmC⟩)
  · exact Or.inr (Or.inr ⟨fun hmA => dA_BC hmA (List.mem_append_right _ h),
      fun hmB => dBC hmB h, h⟩)

/-- C10 (counterexample): the ratio pair `(-1/2, 1/2)` satisfies the only
precondition the code checks (`train_ratio + val_ratio ≤ 1`), yet on the
identity permutation of `4` nodes the produced train mask and test mask both
contain node `0`, so the three masks are not pairwise disjoint. -/
theorem random_splits_mask_cex :
    ((-(1 : ℚ)/2) + 1/2 ≤ 1)
      ∧ List.Perm [0, 1, 2, 3] (List.range 4)
      ∧ (randomSplitMasks [0, 1, 2, 3] 4 (-(1 : ℚ)/2) (1/2)).1.getD 0 false = true
      ∧ (randomSplitMasks [0, 1, 2, 3] 4 (-(1 : ℚ)/2) (1/2)).2.2.getD 0 false = true :=
  ⟨by decide, by decide, by decide, by decide⟩

/-- C10 (amended): for every node count, every permutation produced by
`torch.randperm`, and every pair of nonnegative ratios with
`train_ratio + val_ratio ≤ 1`, the three masks produced by
`__random_split_masks` put every node index in exactly one of the train,
validation and test splits. -/
theorem random_splits_mask_partition {perm : List Nat} {n : Nat} {tr vr : ℚ}
    (hperm : perm.Perm (List.range n))
    (htr : 0 ≤ tr) (hvr : 0 ≤ vr) (hsum : tr + vr ≤ 1)
    {i : Nat} (hi : i < n) :
    exactlyOneOfThree
      ((randomSplitMasks perm n tr vr).1.getD i false)
      ((randomSplitMasks perm n tr vr).2.1.getD i false)
      ((randomSplitMasks perm n tr vr).2.2.getD i false) := by
  have hplen : perm.length = n := by
    rw [hperm.length_eq, List.length_range]
  have htnn : (0 : ℚ) ≤ (n : ℚ) * tr := mul_nonneg (Nat.cast_nonneg n) htr
  have hvnn : (0 : ℚ) ≤ (n : ℚ) * (tr + vr) :=
    mul_nonneg (Nat.cast_nonneg n) (by linarith)
  have hpt : pyInt ((n : ℚ) * tr) = ⌊(n : ℚ) * tr⌋ := by
    rw [pyInt, if_neg (not_lt.mpr htnn)]
  have hpv : pyInt ((n : ℚ) * (tr + vr)) = ⌊(n : ℚ) * (tr + vr)⌋ := by
    rw [pyInt, if_neg (not_lt.mpr hvnn)]
  have ht0 : 0 ≤ ⌊(n : ℚ) * tr⌋ := Int.floor_nonneg.mpr htnn
  have hv0 : 0 ≤ ⌊(n : ℚ) * (tr + vr)⌋ := Int.floor_nonneg.mpr hvnn
  have htv : ⌊(n : ℚ) * tr⌋ ≤ ⌊(n : ℚ) * (tr + vr)⌋ :=
    Int.floor_mono (mul_le_mul_of_nonneg_left (by linarith) (Nat.cast_nonneg n))
  have hvn : ⌊(n : ℚ) * (tr + vr)⌋ ≤ (n : Int) := by
    have hle : (n : ℚ) * (tr + vr) ≤ (n : ℚ) := by
      nlinarith [(Nat.cast_nonneg n : (0 : ℚ) ≤ (n : ℚ))]
    calc ⌊(n : ℚ) * (tr + vr)⌋ ≤ ⌊(n : ℚ)⌋ := Int.floor_mono hle
      _ = (n : Int) := Int.floor_natCast n
  have htn : ⌊(n : ℚ) * tr⌋ ≤ (n : Int) := le_trans htv hvn
  have hs0 : sliceIdx perm.length 0 = 0 := by
    rw [sliceIdx]
    norm_num
  have hst : sliceIdx perm.length ⌊(n : ℚ) * tr⌋ = (⌊(n : ℚ) * tr⌋).toNat := by
    rw [hplen]
    exact sliceIdx_of_nonneg ht0 htn
  have hsv : sliceIdx perm.length ⌊(n : ℚ) * (tr + vr)⌋ = (⌊(n : ℚ) * (tr + vr)⌋).toNat := by
    rw [hplen]
    exact sliceIdx_of_nonneg hv0 hvn
  have hsn : sliceIdx perm.length (perm.length : Int) = n := by
    rw [hplen, sliceIdx_of_nonneg (Int.natCast_nonneg n) (le_refl _), Int.toNat_natCast]
  have hA : pySlice perm 0 ⌊(n : ℚ) * tr⌋ = perm.take (⌊(n : ℚ) * tr⌋).toNat := by
    simp only [pySlice, hs0, hst, List.drop_zero, Nat.sub_zero]
  have hB : pySlice perm ⌊(n : ℚ) * tr⌋ ⌊(n : ℚ) * (tr + vr)⌋
      = (perm.drop (⌊(n : ℚ) * tr⌋).toNat).take
          ((⌊(n : ℚ) * (tr + vr)⌋).toNat - (⌊(n : ℚ) * tr⌋).toNat) := by
    simp only [pySlice, hst, hsv]
  have hC : pySlice perm ⌊(n : ℚ) * (tr + vr)⌋ (perm.length : Int)
      = perm.drop (⌊(n : ℚ) * (tr + vr)⌋).toNat := by
    simp only [pySlice, hsv, hsn]
    apply List.take_of_length_le
    rw [List.length_drop, hplen]
  have hmasks : randomSplitMasks perm n tr vr
      = (indexToMask (perm.take (⌊(n : ℚ) * tr⌋).toNat) n,
          indexToMask ((perm.drop (⌊(n : ℚ) * tr⌋).toNat).take
            ((⌊(n : ℚ) * (tr + vr)⌋).toNat - (⌊(n : ℚ) * tr⌋).toNat)) n,
          indexToMask (perm.drop (⌊(n : ℚ) * (tr + vr)⌋).toNat) n) := by
    rw [randomSplitMasks]
    rw [hpt, hpv, hA, hB, hC]
  rw [hmasks]
  exact masks_partition_core hperm (by omega) hi

/-- Witness for C10 (amended) on the permutation `[1, 0, 2]` of `3` nodes with
ratios `(1/3, 1/3)` at node index `2`. -/
theorem random_splits_mask_partition_witness :
    exactlyOneOfThree
      ((randomSplitMasks [1, 0, 2] 3 (1/3 : ℚ) (1/3)).1.getD 2 false)
      ((randomSplitMasks [1, 0, 2] 3 (1/3 : ℚ) (1/3)).2.1.getD 2 false)
      ((randomSplitMasks [1, 0, 2] 3 (1/3 : ℚ) (1/3)).2.2.getD 2 false) :=
  @random_splits_mask_partition [1, 0, 2] 3 (1/3) (1/3)
    (by decide) (by decide) (by decide) (by decide) 2 (by decide)

end AutoGL